/-
Verification of the candidate-search and ranking core of the `signal`
repository (backend/app.py), against its natural-language specification.

The embedding models Python strings as `List Char` (ASCII-faithful:
`Char.toLower` lowers exactly the ASCII range, matching the behaviour of
the source on ASCII input), Python floats as exact rationals `ℚ`
(the source only ever combines the constants 0.6, 0.4, 0.1, 0.3, 1.0 and
small integer ratios), and Python's dynamically-typed Airtable field
values as an explicit JSON-like inductive type.
-/
import Mathlib

namespace Signal

/-- Python strings are modelled as lists of characters. -/
abbrev Str := List Char

/-! ## Character classes -/

/-- ASCII whitespace, as recognised by Python `str.split()` / `str.strip()`. -/
def isSpaceChar (c : Char) : Bool :=
  c == ' ' || c == '\t' || c == '\n' || c == '\r' || c == '\x0b' || c == '\x0c'

/-- A character matched by the character class `[a-z0-9]` used in
`tokenize_query`'s `re.split(r"[^a-z0-9]+", ...)`. -/
def isLowerAlnum (c : Char) : Bool :=
  ('a' ≤ c && c ≤ 'z') || ('0' ≤ c && c ≤ '9')

/-- A character matched by the regex class `\w` (ASCII): `[a-zA-Z0-9_]`,
used by `extract_matched_terms`'s `re.findall(r'\b\w+\b', ...)`. -/
def isWordChar (c : Char) : Bool :=
  isLowerAlnum c || ('A' ≤ c && c ≤ 'Z') || c == '_'

/-- A sentence terminator, as in `generate_snippet`'s `re.split(r'[.!?]+', ...)`. -/
def isSentChar (c : Char) : Bool :=
  c == '.' || c == '!' || c == '?'

/-! ## Splitting

`splitRuns isSep s` models Python `re.split(pat+, s)` where `pat` matches a
single separator character: the string is cut at every maximal run of
separator characters, and an empty piece is produced at the start (resp.
end) when the string starts (resp. ends) with a separator. -/

/-- One step (one character, scanned right to left) of the `re.split`
state machine.  The state is `(inRun, pieces)`: whether the character just
to the right was part of a separator run, and the pieces produced so far
(the head piece is the one currently being extended).  A separator starting
a new run (seen from the right) closes the head piece by pushing a fresh
empty piece; a separator inside a run changes nothing; an ordinary
character is prepended to the head piece. -/
def splitStep (isSep : Char → Bool) (c : Char) : Bool × List Str → Bool × List Str
  | (inRun, pieces) =>
    if isSep c then
      if inRun then (true, pieces) else (true, [] :: pieces)
    else
      (false, match pieces with | [] => [[c]] | h :: t => (c :: h) :: t)

/-- Model of `re.split` on one-or-more repetitions of a single-character
class: split at each maximal separator run, keeping boundary empties
(exactly Python's behaviour: splitting `"-a-"` gives `["", "a", ""]`,
splitting `""` gives `[""]`, splitting `"a--b"` gives `["a", "b"]`). -/
def splitRuns (isSep : Char → Bool) (s : Str) : List Str :=
  (s.foldr (splitStep isSep) (false, [[]])).2

/-- Python `s.split()` (no argument): split on whitespace runs and drop all
empty pieces. -/
def pySplitWS (s : Str) : List Str :=
  (splitRuns isSpaceChar s).filter (fun w => !w.isEmpty)

/-! ## Substring test

`strContains hay needle` models Python's `needle in hay`. -/

/-- Prefix test: `startsWith hay needle` holds when `needle` is an initial segment of `hay`. -/
def startsWith : Str → Str → Bool
  | _, [] => true
  | [], _ :: _ => false
  | c :: cs, d :: ds => c == d && startsWith cs ds

/-- Python's substring test `needle in hay`. -/
def strContains : Str → Str → Bool
  | [], needle => startsWith [] needle
  | c :: cs, needle => startsWith (c :: cs) needle || strContains cs needle

/-! ## Mode A text similarity (`calculate_text_similarity`, app.py 139-161)

The source first coerces a non-string `text` argument to a string; in this
embedding the coercion is performed by the caller (`scoreA` below, mirroring
app.py lines 564-570), so the similarity itself takes plain strings. -/

/-- The word set of a string: Python `set(s.lower().split())`. -/
def wordSet (s : Str) : Finset Str :=
  (pySplitWS (s.map Char.toLower)).toFinset

/-- Function `calculate_text_similarity` (app.py 139-161): Jaccard similarity of the
lowercased whitespace-split word sets; `0.0` when either *string* is empty
or the union of the word sets is empty. -/
def calculate_text_similarity (query text : Str) : ℚ :=
  if query.isEmpty || text.isEmpty then 0
  else
    let query_words := wordSet query
    let text_words := wordSet text
    let intersection := (query_words ∩ text_words).card
    let union := (query_words ∪ text_words).card
    if union = 0 then 0 else (intersection : ℚ) / (union : ℚ)

/-! ## Query Processor (app.py 216-241) -/

/-- The fixed stopword set `STOPWORDS` (app.py 216-222). -/
def STOPWORDS : List Str :=
  (["a", "an", "the", "and", "or", "but", "if", "then", "else", "for", "to",
    "of", "in", "on", "at", "by", "with", "from",
    "is", "are", "was", "were", "be", "been", "being", "as", "it", "this",
    "that", "these", "those", "you", "your", "yours",
    "i", "we", "they", "he", "she", "them", "him", "her", "my", "our", "us",
    "me"] : List String).map String.toList

/-- The filtering/deduplication loop of `tokenize_query` (app.py 229-236):
skip empty, short (< 2) and stopword tokens, and keep only the first
occurrence of each remaining token. `seen` is the accumulator set. -/
def tokFilterAux : List Str → List Str → List Str
  | [], _ => []
  | t :: ts, seen =>
    if t.isEmpty || t.length < 2 || t ∈ STOPWORDS then tokFilterAux ts seen
    else if t ∈ seen then tokFilterAux ts seen
    else t :: tokFilterAux ts (t :: seen)

/-- Function `tokenize_query` (app.py 224-236): empty query gives `[]`; otherwise
lowercase, split on runs of non-`[a-z0-9]` characters, then filter and
deduplicate keeping first occurrences. -/
def tokenize_query (query : Str) : List Str :=
  if query.isEmpty then []
  else tokFilterAux (splitRuns (fun c => !isLowerAlnum c) (query.map Char.toLower)) []

/-- One step (one character, left to right) of the
`re.findall(r'"([^"]+)"', s)` scan.  The state is
`(inQuote, cur, acc)`: whether the scan is between an opening quote and the
next quote, the (reversed) group content collected so far, and the matches
already produced.  A quote closing a non-empty group emits the group; a
quote arriving while the group is still empty cannot close it (the group
`[^"]+` needs at least one character), so the regex engine re-tries from
that quote, which therefore acts as a new opening quote. -/
def phraseStep (st : Bool × Str × List Str) (c : Char) : Bool × Str × List Str :=
  match st with
  | (false, _, acc) => if c == '"' then (true, [], acc) else (false, [], acc)
  | (true, cur, acc) =>
    if c == '"' then
      if cur.isEmpty then (true, [], acc) else (false, [], acc ++ [cur.reverse])
    else (true, c :: cur, acc)

/-- The matches of `re.findall(r'"([^"]+)"', s)`: the non-empty runs of
non-quote characters enclosed in double quotes, left to right. -/
def findPhrases (s : Str) : List Str :=
  (s.foldl phraseStep (false, [], [])).2.2

/-- Function `extract_phrases` (app.py 238-241): all double-quoted substrings of the
lowercased query. -/
def extract_phrases (query : Str) : List Str :=
  if query.isEmpty then [] else findPhrases (query.map Char.toLower)

/-! ## Matched terms (`extract_matched_terms`, app.py 163-179) -/

/-- Model of `re.findall(r'\b\w+\b', s)`: the maximal runs of word characters of `s`. -/
def reFindallWords (s : Str) : List Str :=
  (splitRuns (fun c => !isWordChar c) s).filter (fun w => !w.isEmpty)

/-- First-occurrence deduplication with an explicit `seen` accumulator. -/
def dedupFirstAux {α : Type} [DecidableEq α] : List α → List α → List α
  | [], _ => []
  | a :: as, seen =>
    if a ∈ seen then dedupFirstAux as seen else a :: dedupFirstAux as (a :: seen)

/-- First-occurrence deduplication of a list. -/
def dedupFirst {α : Type} [DecidableEq α] (l : List α) : List α :=
  dedupFirstAux l []

/-- Function `extract_matched_terms` (app.py 163-179): word-character runs of the
lowercased query, kept when of length > 2 and occurring as a substring of
the lowercased resume text, returned with duplicates removed.  The source's
final `list(set(matched))` has an unspecified order (a Python hash-set
iteration); the embedding fixes first-occurrence order, and every property
proved about it is order-independent.  The non-string coercion at app.py
166-171 is performed by the caller in this embedding (see `scoreA`). -/
def extract_matched_terms (query resume_text : Str) : List Str :=
  let resume_lower := resume_text.map Char.toLower
  dedupFirst
    ((reFindallWords (query.map Char.toLower)).filter
      (fun term => 2 < term.length && strContains resume_lower term))

/-! ## Snippet (`generate_snippet`, app.py 185-213) -/

/-- Python `s.strip()`: remove leading and trailing whitespace. -/
def pyStrip (s : Str) : Str :=
  ((s.dropWhile isSpaceChar).reverse.dropWhile isSpaceChar).reverse

/-- Number of matched terms occurring in a sentence
(`sum(1 for term in matched_terms if term in sentence_lower)`, app.py 203). -/
def sentenceMatches (terms : List Str) (sentence : Str) : ℕ :=
  terms.countP (fun term => strContains (sentence.map Char.toLower) term)

/-- The best-sentence loop of `generate_snippet` (app.py 198-206):
`best` and `m` are the running `best_sentence` / `max_matches`; a sentence
strictly improving the match count replaces the best (stripped). -/
def bestLoop (terms : List Str) : List Str → Str → ℕ → Str
  | [], best, _ => best
  | s :: ss, best, m =>
    if m < sentenceMatches terms s then bestLoop terms ss (pyStrip s) (sentenceMatches terms s)
    else bestLoop terms ss best m

/-- The fallback snippet (app.py 194 and 213): the first `maxLen` characters
of the text, with a `"..."` marker exactly when the text is longer. -/
def fallbackSnippet (text : Str) (maxLen : ℕ) : Str :=
  if maxLen < text.length then text.take maxLen ++ ('.' :: '.' :: '.' :: []) else text

/-- Function `generate_snippet` (app.py 185-213).  `maxLen` is the `max_length`
parameter (the source default is 150, used by the search endpoint).
The non-string coercion at app.py 187-192 is performed by the caller in
this embedding (see `scoreA`). -/
def generate_snippet (resume_text : Str) (matched_terms : List Str) (maxLen : ℕ) : Str :=
  if matched_terms.isEmpty then fallbackSnippet resume_text maxLen
  else
    let sentences := splitRuns isSentChar resume_text
    let best := bestLoop matched_terms sentences [] 0
    if !best.isEmpty then
      if maxLen < best.length then best.take maxLen ++ ('.' :: '.' :: '.' :: []) else best
    else fallbackSnippet resume_text maxLen

/-! ## Python rounding

Python's built-in `round` rounds half to even ("banker's rounding"); the
exact-rational model below idealises away binary floating-point
representation error. -/

/-- Python `round(q)`: round half to even. -/
def pyRound0 (q : ℚ) : ℤ :=
  if q - ⌊q⌋ = 1 / 2 then (if 2 ∣ ⌊q⌋ then ⌊q⌋ else ⌊q⌋ + 1) else round q

/-- Python `round(q, 3)`. -/
def pyRound3 (q : ℚ) : ℚ :=
  (pyRound0 (q * 1000) : ℚ) / 1000

/-! ## Dynamically-typed field values

Airtable fields reach the scoring code as arbitrary JSON-decoded Python
values; the source coerces any non-string to a string with
`json.dumps(value)` (falling back to `str(value)` only when `json.dumps`
raises, which cannot happen for JSON-decoded values, so the fallback is
unreachable in this model). -/

/-- A JSON-decoded Python value as stored in an Airtable field. -/
inductive Jval : Type where
  | jstr : Str → Jval
  | jnum : ℤ → Jval
  | jbool : Bool → Jval
  | jnull : Jval
  | jarr : List Jval → Jval

/-- Decimal digits of a natural number. -/
def natToChars (n : ℕ) : Str :=
  if h : n < 10 then [Nat.digitChar n]
  else natToChars (n / 10) ++ [Nat.digitChar (n % 10)]
decreasing_by
  exact Nat.div_lt_self (by omega) (by omega)

/-- Decimal representation of an integer. -/
def intToChars (i : ℤ) : Str :=
  if i < 0 then '-' :: natToChars i.natAbs else natToChars i.toNat

/-- JSON string escaping for the common escape sequences emitted by
`json.dumps`. -/
def escapeJson (s : Str) : Str :=
  s.flatMap (fun c =>
    if c == '"' then ['\\', '"']
    else if c == '\\' then ['\\', '\\']
    else if c == '\n' then ['\\', 'n']
    else if c == '\t' then ['\\', 't']
    else if c == '\r' then ['\\', 'r']
    else [c])

mutual

/-- Model of `json.dumps` on a JSON value (default separators: `", "` between array
items). -/
def jsonDumps : Jval → Str
  | .jstr s => '"' :: (escapeJson s ++ ['"'])
  | .jnum n => intToChars n
  | .jbool b => if b then "true".toList else "false".toList
  | .jnull => "null".toList
  | .jarr l => '[' :: (jsonDumpsList l ++ [']'])

/-- The `", "`-separated serialisations of the items of a JSON array. -/
def jsonDumpsList : List Jval → Str
  | [] => []
  | [v] => jsonDumps v
  | v :: v' :: vs => jsonDumps v ++ (',' :: ' ' :: jsonDumpsList (v' :: vs))

end

/-- The non-string coercion repeated at app.py 145-149, 167-171, 188-192 and
566-570: a string field is used as-is, anything else is JSON-serialised. -/
def coerceText : Jval → Str
  | .jstr s => s
  | v => jsonDumps v

/-! ## Mode A scoring (`POST /api/search`, `search_candidates`, app.py 553-674) -/

/-- Constant `RELEVANCE_ALPHA` (app.py 52), default `0.6`. -/
def RELEVANCE_ALPHA : ℚ := 0.6

/-- Constant `INTENT_CAP` (app.py 51), default `5` (an integer in the source). -/
def INTENT_CAP : ℚ := 5

/-- Intent normalisation `min(intent_count / INTENT_CAP, 1.0)` (app.py 577). -/
def modeA_intentNorm (intent_count : ℤ) : ℚ :=
  min ((intent_count : ℚ) / INTENT_CAP) 1

/-- Mode A relevance (app.py 580-583): the weighted combination of text
similarity and normalised intent, clamped to `[0, 1]` by
`max(0.0, min(1.0, relevance))`. -/
def modeA_relevance (query text : Str) (intent_count : ℤ) : ℚ :=
  max 0 (min 1 (RELEVANCE_ALPHA * calculate_text_similarity query text
      + (1 - RELEVANCE_ALPHA) * modeA_intentNorm intent_count))

/-- A candidate record as consumed by the Mode A endpoint: only the fields
the scoring core reads. `resume` is the raw `Resume Text` field (possibly
non-string), `intentCount` the value of `int(fields.get("Intent Count", 0) or 0)`. -/
structure ACandidate : Type where
  name : Str
  resume : Jval
  intentCount : ℤ

/-- The fields of a `CandidateResult` (app.py 91-106) that the scoring core
produces. `relevance` and `fit_score` carry the `round(_, 3)` applied at
app.py 656-657. -/
structure AResult : Type where
  name : Str
  relevance : ℚ
  fit_score : ℚ
  intent_count : ℤ
  matched_terms : List Str
  snippet : Str
deriving DecidableEq

/-- Scoring of one candidate by `search_candidates` (app.py 561-670):
coerce the resume text, compute text similarity, normalised intent,
clamped relevance, matched terms and snippet. -/
def scoreA (query : Str) (c : ACandidate) : AResult :=
  let resume_text := coerceText c.resume
  let matched_terms := extract_matched_terms query resume_text
  { name := c.name
    relevance := pyRound3 (modeA_relevance query resume_text c.intentCount)
    fit_score := pyRound3 (modeA_intentNorm c.intentCount)
    intent_count := c.intentCount
    matched_terms := matched_terms
    snippet := generate_snippet resume_text matched_terms 150 }

/-! ## Mode B scoring (`GET /api/search`, `search_candidates_ui`, app.py 405-551) -/

/-- The phrase-boost loop (app.py 513-516): `+0.1` for every phrase that is
non-empty and a substring of the lowercased summary. -/
def phraseBoost (phrases : List Str) (text : Str) : ℚ :=
  phrases.foldl (fun b ph => if !ph.isEmpty && strContains text ph then b + 0.1 else b) 0

/-- Mode B relevancy (app.py 508-517): token hit ratio, plus the phrase
boost capped at `0.3`, the sum clamped to `1.0`. -/
def modeB_relevancy (terms phrases : List Str) (summary : Str) : ℚ :=
  let text := summary.map Char.toLower
  let hits := terms.countP (fun t => strContains text t)
  let base : ℚ := if !terms.isEmpty then (hits : ℚ) / (terms.length : ℚ) else 0
  min 1 (base + min (phraseBoost phrases text) 0.3)

/-- Mode B intent normalisation `min((intent_raw or 0.0) / 5.0, 1.0)`
(app.py 520; the divisor 5.0 is hard-coded, unlike Mode A's `INTENT_CAP`). -/
def modeB_intentNorm (intent_raw : ℚ) : ℚ :=
  min (intent_raw / 5) 1

/-- Mode B final score (app.py 522-526): blend when the query produced
tokens, otherwise intent alone. -/
def modeB_final (terms phrases : List Str) (summary : Str) (intent_raw : ℚ) : ℚ :=
  if !terms.isEmpty then
    0.6 * modeB_relevancy terms phrases summary + 0.4 * modeB_intentNorm intent_raw
  else modeB_intentNorm intent_raw

/-- A record as consumed by the Mode B endpoint: the summary already
normalised to a plain string by app.py 471-500 (empty for a missing
summary, per `(summary or "")` at app.py 509), and the numeric intent
value produced by `get_intent_raw` (app.py 445-455). -/
structure BRecord : Type where
  name : Str
  summary : Str
  intentRaw : ℚ
deriving DecidableEq

/-- The scored UI item built at app.py 528-539 (fields used by ranking;
`relevance` carries the `round(relevancy, 3)` of app.py 535, `finalScore`
is the internal `_finalScore` sort key). -/
structure BItem : Type where
  name : Str
  relevance : ℚ
  finalScore : ℚ
deriving DecidableEq

/-- Scoring of one record by `search_candidates_ui` for fixed derived
`terms`/`phrases` (computed once per request at app.py 442-443). -/
def scoreB (terms phrases : List Str) (r : BRecord) : BItem :=
  { name := r.name
    relevance := pyRound3 (modeB_relevancy terms phrases r.summary)
    finalScore := modeB_final terms phrases r.summary r.intentRaw }

/-! ## Sorting and truncation

Python's `list.sort` is stable, also with `reverse=True` (documented
behaviour of Timsort); it is modelled by a stable insertion sort into
descending key order. -/

/-- Insert into a descending-ordered list, after any earlier element of
greater-or-equal key (so that equal-key elements keep their original
relative order). -/
def insertDesc {α : Type} (key : α → ℚ) (x : α) : List α → List α
  | [] => [x]
  | y :: ys => if key y ≤ key x then x :: y :: ys else y :: insertDesc key x ys

/-- Stable sort by descending key: the model of
`results.sort(key=..., reverse=True)`. -/
def stableSortDesc {α : Type} (key : α → ℚ) (l : List α) : List α :=
  l.foldr (insertDesc key) []

/-- The `limit` default of the Mode A request body (`SearchRequest.limit`,
app.py 82). -/
def DEFAULT_LIMIT : ℕ := 20

/-- Endpoint `search_candidates` (app.py 553-674) applied to already-fetched
candidates: score each, sort by the rounded `relevance` field descending
(app.py 673), truncate to `limit` (app.py 674). -/
def searchA (query : Str) (candidates : List ACandidate) (limit : ℕ) : List AResult :=
  (stableSortDesc (fun r => r.relevance) (candidates.map (scoreA query))).take limit

/-- Endpoint `search_candidates_ui` (app.py 405-551) applied to already-fetched
records: derive terms and phrases once, score each record, sort by
`_finalScore` descending (app.py 541); the GET endpoint has no limit. -/
def searchB (query : Str) (records : List BRecord) : List BItem :=
  let terms := tokenize_query query
  let phrases := extract_phrases query
  stableSortDesc (fun i => i.finalScore) (records.map (scoreB terms phrases))

/-! ## Spec-side definitions

The following definitions transcribe the *specification's* wording of the
scoring formulas (claims C1, C2, C6, C7); the theorems below compare them
with the source-derived definitions above. -/

/-- Spec wording of Mode A text similarity (claim C1):
`|queryWords ∩ textWords| / |queryWords ∪ textWords|` over case-lowered
whitespace-split word sets, `0` if either word set is empty. -/
def textSim_spec (query text : Str) : ℚ :=
  if wordSet query = ∅ ∨ wordSet text = ∅ then 0
  else ((wordSet query ∩ wordSet text).card : ℚ) / ((wordSet query ∪ wordSet text).card : ℚ)

/-- Spec wording of Mode A relevance (claim C1):
`clamp(ALPHA * textSim + (1 - ALPHA) * intentNorm, 0, 1)` with
`ALPHA = 0.6` and `intentNorm = min(intentCount / INTENT_CAP, 1)`. -/
def relevanceA_spec (query text : Str) (intentCount : ℤ) : ℚ :=
  max 0 (min 1 ((0.6 : ℚ) * textSim_spec query text
      + (1 - (0.6 : ℚ)) * min ((intentCount : ℚ) / 5) 1))

/-- Spec wording of Mode B relevance (claim C2):
`min(1.0, baseRelevance + min(0.1 * phraseMatches, 0.3))` with
`baseRelevance = hits / |tokens|` (0 when there are no tokens), `hits` the
number of tokens that are substrings of the lowercased text and
`phraseMatches` the number of phrases that are substrings of the text. -/
def relevanceB_spec (terms phrases : List Str) (summary : Str) : ℚ :=
  let text := summary.map Char.toLower
  let hits := terms.countP (fun t => strContains text t)
  let phraseMatches := (phrases.filter (fun ph => strContains text ph)).length
  let base : ℚ := if terms.isEmpty then 0 else (hits : ℚ) / (terms.length : ℚ)
  min 1 (base + min ((0.1 : ℚ) * phraseMatches) 0.3)

/-- Spec wording of the Mode B final score (claim C2):
`0.6 * relevance + 0.4 * min(intentRaw / 5.0, 1.0)` when there are tokens,
else the normalised intent alone. -/
def finalB_spec (terms phrases : List Str) (summary : Str) (intentRaw : ℚ) : ℚ :=
  if terms.isEmpty then min (intentRaw / 5) 1
  else 0.6 * relevanceB_spec terms phrases summary + 0.4 * min (intentRaw / 5) 1

/-- Spec wording of the Query Processor's tokens (claim C6): lowercase,
split on runs of non-alphanumeric characters, drop empty strings, tokens
shorter than 2 characters and stopwords, deduplicate keeping first
occurrences. -/
def tokens_spec (query : Str) : List Str :=
  dedupFirst
    ((splitRuns (fun c => !isLowerAlnum c) (query.map Char.toLower)).filter
      (fun t => !t.isEmpty && !(t.length < 2) && !(t ∈ STOPWORDS : Bool)))

/-- Highest per-sentence match count over a list of sentences. -/
def maxMatches (terms : List Str) (sentences : List Str) : ℕ :=
  sentences.foldr (fun s acc => max (sentenceMatches terms s) acc) 0

/-- Truncation of a snippet to `maxLen` characters with a `"..."` marker
when longer. -/
def truncDots (s : Str) (maxLen : ℕ) : Str :=
  if maxLen < s.length then s.take maxLen ++ ('.' :: '.' :: '.' :: []) else s

/-- The snippet exactly as claim C7 words it: the first-seen sentence with
the strictly highest count of matched terms, truncated; the fallback (first
`maxLen` characters of the text, with the marker exactly when the text is
longer) only when there are no matched terms or no sentence contains one.
No whitespace stripping of the winning sentence. -/
def snippet_claimed (text : Str) (terms : List Str) (maxLen : ℕ) : Str :=
  let sentences := splitRuns isSentChar text
  let m := maxMatches terms sentences
  if terms.isEmpty || m = 0 then fallbackSnippet text maxLen
  else truncDots ((sentences.find? (fun s => sentenceMatches terms s = m)).getD []) maxLen

/-- The amended snippet specification (claim C7 corrected): as
`snippet_claimed`, but the winning sentence is stripped of leading and
trailing whitespace before truncation, and a winner that strips to the
empty string also falls back to the head of the full text. -/
def snippet_spec (text : Str) (terms : List Str) (maxLen : ℕ) : Str :=
  let sentences := splitRuns isSentChar text
  let m := maxMatches terms sentences
  if terms.isEmpty || m = 0 then fallbackSnippet text maxLen
  else
    let best := pyStrip ((sentences.find? (fun s => sentenceMatches terms s = m)).getD [])
    if best.isEmpty then fallbackSnippet text maxLen else truncDots best maxLen

/-! ## Helper lemmas -/

theorem wordSet_nil : wordSet [] = ∅ := by decide

/-- The source's guard (`if not query or not text`, on the *strings*) and
the spec's guard (on the *word sets*) give the same similarity. -/
theorem calculate_text_similarity_eq_spec (q t : Str) :
    calculate_text_similarity q t = textSim_spec q t := by
  unfold calculate_text_similarity textSim_spec
  by_cases hq : q.isEmpty
  · have hqw : wordSet q = ∅ := by
      rw [List.isEmpty_iff] at hq; rw [hq]; exact wordSet_nil
    simp [hq, hqw]
  · by_cases ht : t.isEmpty
    · have htw : wordSet t = ∅ := by
        rw [List.isEmpty_iff] at ht; rw [ht]; exact wordSet_nil
      simp [hq, ht, htw]
    · simp only [hq, ht, Bool.or_self, Bool.false_or, if_neg, Bool.false_eq_true,
        not_false_eq_true]
      by_cases hqw : wordSet q = ∅
      · simp only [hqw, if_pos, true_or, Finset.empty_inter, Finset.card_empty,
          Nat.cast_zero, zero_div]
        split <;> rfl
      · by_cases htw : wordSet t = ∅
        · simp only [htw, if_pos, or_true, Finset.inter_empty, Finset.card_empty,
            Nat.cast_zero, zero_div]
          split <;> rfl
        · have hu : (wordSet q ∪ wordSet t).card ≠ 0 := by
            refine Nat.pos_iff_ne_zero.mp (Finset.card_pos.mpr ?_)
            exact (Finset.nonempty_iff_ne_empty.mpr hqw).mono Finset.subset_union_left
          simp [hqw, htw, hu]

/-- Claim C1: in Mode A, for every query string, candidate text and stored
intent count, the relevance equals
`clamp(ALPHA * textSim + (1 - ALPHA) * intentNorm, 0, 1)` with `ALPHA = 0.6`,
where `textSim` is the Jaccard similarity of the lowercased
whitespace-split word sets (0 when either word set is empty) and
`intentNorm = min(intentCount / INTENT_CAP, 1)` with `INTENT_CAP = 5`. -/
theorem c1_modeA_relevance_formula (query text : Str) (intentCount : ℤ) :
    modeA_relevance query text intentCount = relevanceA_spec query text intentCount := by
  unfold modeA_relevance relevanceA_spec modeA_intentNorm RELEVANCE_ALPHA INTENT_CAP
  rw [calculate_text_similarity_eq_spec]

/-- The phrase-boost loop accumulates `0.1` once per matching phrase. -/
theorem phraseBoost_foldl (text : Str) (phrases : List Str) :
    ∀ b : ℚ,
      phrases.foldl (fun b ph => if !ph.isEmpty && strContains text ph then b + 0.1 else b) b
        = b + 0.1 * ((phrases.filter (fun ph => !ph.isEmpty && strContains text ph)).length : ℚ) := by
  induction phrases with
  | nil => intro b; simp
  | cons ph phs ih =>
    intro b
    by_cases h : (!ph.isEmpty && strContains text ph) = true
    · simp only [List.foldl_cons, h, if_pos, List.filter_cons_of_pos, List.length_cons, ih]
      push_cast
      ring
    · simp only [List.foldl_cons, h, if_neg, Bool.false_eq_true, not_false_eq_true,
        List.filter_cons_of_neg, ih]

/-- Invariant of the phrase scan: every accumulated match is non-empty. -/
theorem phraseStep_acc_ne_nil (s : Str) :
    ∀ st : Bool × Str × List Str, (∀ ph ∈ st.2.2, ph ≠ []) →
      ∀ ph ∈ (s.foldl phraseStep st).2.2, ph ≠ [] := by
  induction s with
  | nil => intro st h; exact h
  | cons c cs ih =>
    intro st h
    refine ih (phraseStep st c) ?_
    obtain ⟨inQ, cur, acc⟩ := st
    intro ph hph
    match inQ with
    | false =>
      unfold phraseStep at hph
      by_cases hc : (c == '"') = true <;> simp only [hc, if_true, Bool.false_eq_true,
        if_false, if_pos, if_neg, not_false_eq_true] at hph <;> exact h ph hph
    | true =>
      unfold phraseStep at hph
      by_cases hc : (c == '"') = true
      · simp only [hc, if_pos] at hph
        by_cases hcur : cur.isEmpty = true
        · simp only [hcur, if_pos] at hph
          exact h ph hph
        · simp only [hcur, Bool.false_eq_true, if_neg, not_false_eq_true,
            List.mem_append, List.mem_singleton] at hph
          rcases hph with hph | hph
          · exact h ph hph
          · subst hph
            intro hrev
            rw [List.reverse_eq_nil_iff] at hrev
            rw [hrev] at hcur
            exact hcur rfl
      · simp only [hc, Bool.false_eq_true, if_neg, not_false_eq_true] at hph
        exact h ph hph

/-- Every phrase returned by `extract_phrases` is non-empty. -/
theorem extract_phrases_ne_nil (query : Str) :
    ∀ ph ∈ extract_phrases query, ph ≠ [] := by
  unfold extract_phrases
  by_cases h : query.isEmpty <;> simp only [h, Bool.false_eq_true, if_pos, if_neg,
    not_false_eq_true]
  · intro ph hph; simp at hph
  · exact phraseStep_acc_ne_nil _ _ (by intro ph hph; simp at hph)

/-- Claim C2: in Mode B, the relevance equals
`min(1.0, baseRelevance + min(0.1 * phraseMatches, 0.3))` — the phrase
boost is capped at 0.3 first, then added, then the sum clamped to 1.0 —
and the final score is `0.6 * relevance + 0.4 * min(intentRaw / 5.0, 1.0)`
when the query produced tokens and the normalised intent alone otherwise. -/
theorem c2_modeB_score_formula (query summary : Str) (intentRaw : ℚ) :
    modeB_relevancy (tokenize_query query) (extract_phrases query) summary
        = relevanceB_spec (tokenize_query query) (extract_phrases query) summary
      ∧ modeB_final (tokenize_query query) (extract_phrases query) summary intentRaw
        = finalB_spec (tokenize_query query) (extract_phrases query) summary intentRaw := by
  have hrel : modeB_relevancy (tokenize_query query) (extract_phrases query) summary
      = relevanceB_spec (tokenize_query query) (extract_phrases query) summary := by
    have hfilter :
        (extract_phrases query).filter
            (fun ph => !ph.isEmpty && strContains (summary.map Char.toLower) ph)
          = (extract_phrases query).filter
              (fun ph => strContains (summary.map Char.toLower) ph) := by
      refine List.filter_congr ?_
      intro ph hph
      have := extract_phrases_ne_nil query ph hph
      simp [List.isEmpty_iff, this]
    unfold modeB_relevancy relevanceB_spec phraseBoost
    simp only [phraseBoost_foldl, zero_add, hfilter]
    rcases Bool.eq_false_or_eq_true (tokenize_query query).isEmpty with he | he <;>
      simp [he]
  refine ⟨hrel, ?_⟩
  unfold modeB_final finalB_spec modeB_intentNorm
  rw [hrel]
  rcases Bool.eq_false_or_eq_true (tokenize_query query).isEmpty with he | he <;> simp [he]

/-! ## Sorting lemmas -/

theorem insertDesc_perm {α : Type} (key : α → ℚ) (x : α) (l : List α) :
    (insertDesc key x l).Perm (x :: l) := by
  induction l with
  | nil => exact List.Perm.refl _
  | cons y ys ih =>
    unfold insertDesc
    by_cases h : key y ≤ key x
    · simp only [if_pos h]
      exact List.Perm.refl _
    · simp only [if_neg h]
      exact (ih.cons y).trans (List.Perm.swap x y ys)

theorem insertDesc_mem {α : Type} (key : α → ℚ) (x : α) (l : List α) (b : α)
    (hb : b ∈ insertDesc key x l) : b = x ∨ b ∈ l := by
  have := (insertDesc_perm key x l).mem_iff.mp hb
  simpa using this

theorem insertDesc_pairwise {α : Type} (key : α → ℚ) (x : α) (l : List α)
    (h : l.Pairwise (fun a b => key b ≤ key a)) :
    (insertDesc key x l).Pairwise (fun a b => key b ≤ key a) := by
  induction l with
  | nil => simp [insertDesc]
  | cons y ys ih =>
    rw [List.pairwise_cons] at h
    obtain ⟨hy, hys⟩ := h
    unfold insertDesc
    by_cases hxy : key y ≤ key x
    · simp only [if_pos hxy]
      refine List.Pairwise.cons ?_ (List.Pairwise.cons hy hys)
      intro b hb
      rcases List.mem_cons.mp hb with rfl | hb
      · exact hxy
      · exact le_trans (hy b hb) hxy
    · simp only [if_neg hxy]
      refine List.Pairwise.cons ?_ (ih hys)
      intro b hb
      rcases insertDesc_mem key x ys b hb with rfl | hb
      · exact le_of_lt (lt_of_not_le hxy)
      · exact hy b hb

theorem stableSortDesc_perm {α : Type} (key : α → ℚ) (l : List α) :
    (stableSortDesc key l).Perm l := by
  induction l with
  | nil => exact List.Perm.refl _
  | cons x xs ih =>
    exact (insertDesc_perm key x (stableSortDesc key xs)).trans (ih.cons x)

theorem stableSortDesc_pairwise {α : Type} (key : α → ℚ) (l : List α) :
    (stableSortDesc key l).Pairwise (fun a b => key b ≤ key a) := by
  induction l with
  | nil => simp [stableSortDesc]
  | cons x xs ih => exact insertDesc_pairwise key x _ ih

theorem insertDesc_filter {α : Type} (key : α → ℚ) (x : α) (v : ℚ) (l : List α) :
    (insertDesc key x l).filter (fun y => decide (key y = v))
      = if key x = v then x :: l.filter (fun y => decide (key y = v))
        else l.filter (fun y => decide (key y = v)) := by
  induction l with
  | nil =>
    by_cases hx : key x = v <;> simp [insertDesc, hx]
  | cons y ys ih =>
    unfold insertDesc
    by_cases hxy : key y ≤ key x
    · simp only [if_pos hxy]
      by_cases hx : key x = v <;> simp [hx, List.filter_cons]
    · simp only [if_neg hxy]
      by_cases hx : key x = v
      · have hy : ¬(key y = v) := by
          intro hy
          exact hxy (le_of_eq (hy.trans hx.symm))
        simp [List.filter_cons, hx, hy, ih]
      · simp [List.filter_cons, hx, ih]

theorem stableSortDesc_filter {α : Type} (key : α → ℚ) (v : ℚ) (l : List α) :
    (stableSortDesc key l).filter (fun y => decide (key y = v))
      = l.filter (fun y => decide (key y = v)) := by
  induction l with
  | nil => rfl
  | cons x xs ih =>
    show ((insertDesc key x (stableSortDesc key xs)).filter _) = _
    rw [insertDesc_filter]
    by_cases hx : key x = v <;> simp [hx, List.filter_cons, ih]

/-- Claim C5: both search endpoints return the scored results sorted by
final score descending (for `POST /api/search` the sort key `relevance` is
the blended, rounded score returned to the caller; for `GET /api/search`
it is `_finalScore`), Mode A truncates to at most `limit` results, the
output is a permutation of the scored input (up to truncation), and the
sort is stable: for every key value `v`, the subsequence of results whose
sort key is exactly `v` is preserved in input order. -/
theorem c5_sorted_stable_truncated (query : Str) (cs : List ACandidate)
    (limit : ℕ) (rs : List BRecord) :
    (searchA query cs limit).length ≤ limit
      ∧ (searchA query cs limit).Pairwise (fun a b => b.relevance ≤ a.relevance)
      ∧ searchA query cs limit
          = (stableSortDesc (fun r => r.relevance) (cs.map (scoreA query))).take limit
      ∧ (stableSortDesc (fun r : AResult => r.relevance) (cs.map (scoreA query))).Perm
          (cs.map (scoreA query))
      ∧ (∀ v : ℚ,
          (stableSortDesc (fun r : AResult => r.relevance) (cs.map (scoreA query))).filter
              (fun r => decide (r.relevance = v))
            = (cs.map (scoreA query)).filter (fun r => decide (r.relevance = v)))
      ∧ (searchB query rs).Pairwise (fun a b => b.finalScore ≤ a.finalScore)
      ∧ (searchB query rs).Perm
          (rs.map (scoreB (tokenize_query query) (extract_phrases query)))
      ∧ (∀ v : ℚ,
          (searchB query rs).filter (fun i => decide (i.finalScore = v))
            = (rs.map (scoreB (tokenize_query query) (extract_phrases query))).filter
                (fun i => decide (i.finalScore = v))) := by
  refine ⟨?_, ?_, rfl, stableSortDesc_perm _ _, fun v => stableSortDesc_filter _ v _,
    stableSortDesc_pairwise _ _, stableSortDesc_perm _ _,
    fun v => stableSortDesc_filter _ v _⟩
  · rw [searchA, List.length_take]
    exact min_le_left _ _
  · exact (stableSortDesc_pairwise _ _).sublist (List.take_sublist _ _)

/-! ## Tokenizer lemmas -/

/-- The filter/dedup loop of `tokenize_query` is the composition of a
filter with first-occurrence deduplication. -/
theorem tokFilterAux_eq_filter_dedup : ∀ (l seen : List Str),
    tokFilterAux l seen
      = dedupFirstAux (l.filter
          (fun t => !t.isEmpty && !(t.length < 2) && !(t ∈ STOPWORDS : Bool))) seen := by
  intro l
  induction l with
  | nil => intro seen; rfl
  | cons t ts ih =>
    intro seen
    by_cases hskip : (t.isEmpty || decide (t.length < 2) || decide (t ∈ STOPWORDS)) = true
    · have hkeep : (!t.isEmpty && !decide (t.length < 2) && !decide (t ∈ STOPWORDS)) = false := by
        rw [← Bool.not_or, ← Bool.not_or, hskip]
        rfl
      show (if t.isEmpty || decide (t.length < 2) || decide (t ∈ STOPWORDS) then
          tokFilterAux ts seen
        else if t ∈ seen then tokFilterAux ts seen else t :: tokFilterAux ts (t :: seen)) = _
      rw [if_pos hskip, List.filter_cons_of_neg (by simpa using hkeep), ih]
    · have hkeep : (!t.isEmpty && !decide (t.length < 2) && !decide (t ∈ STOPWORDS)) = true := by
        rw [← Bool.not_or, ← Bool.not_or]
        simp only [Bool.not_eq_true] at hskip
        rw [hskip]
        rfl
      show (if t.isEmpty || decide (t.length < 2) || decide (t ∈ STOPWORDS) then
          tokFilterAux ts seen
        else if t ∈ seen then tokFilterAux ts seen else t :: tokFilterAux ts (t :: seen)) = _
      rw [if_neg (by simpa using hskip), List.filter_cons_of_pos (by simpa using hkeep)]
      simp only [dedupFirstAux]
      by_cases hseen : t ∈ seen
      · rw [if_pos hseen, if_pos hseen, ih]
      · rw [if_neg hseen, if_neg hseen, ih]

/-- Characters of a whitespace character are fixed by lowercasing, are not
alphanumeric, and are not quotes. -/
theorem ws_char_facts (c : Char) (h : isSpaceChar c = true) :
    Char.toLower c = c ∧ isLowerAlnum c = false ∧ (c == '"') = false := by
  simp only [isSpaceChar, Bool.or_eq_true, beq_iff_eq] at h
  rcases h with ((((rfl | rfl) | rfl) | rfl) | rfl) | rfl <;>
    exact ⟨by decide, by decide, by decide⟩

/-- When every character of the input is a separator, every piece produced
by `splitRuns` is empty. -/
theorem splitRuns_all_sep (isSep : Char → Bool) :
    ∀ s : Str, (∀ c ∈ s, isSep c = true) → ∀ p ∈ splitRuns isSep s, p = [] := by
  have key : ∀ s : Str, (∀ c ∈ s, isSep c = true) →
      ∀ p ∈ (s.foldr (splitStep isSep) (false, [[]])).2, p = [] := by
    intro s
    induction s with
    | nil =>
      intro _ p hp
      simpa using hp
    | cons c cs ih =>
      intro h p hp
      have hc : isSep c = true := h c (List.mem_cons_self _ _)
      have hcs := ih (fun d hd => h d (List.mem_cons_of_mem _ hd))
      rw [List.foldr_cons] at hp
      rcases hstate : cs.foldr (splitStep isSep) (false, [[]]) with ⟨inRun, pieces⟩
      rw [hstate] at hp hcs
      unfold splitStep at hp
      rcases inRun with _ | _ <;> simp only [hc, if_pos, if_true, if_false] at hp
      · rcases List.mem_cons.mp hp with rfl | hp
        · rfl
        · exact hcs p hp
      · exact hcs p hp
  intro s h p hp
  exact key s h p hp

/-- When the input contains no double quote the phrase scan stays in its
initial state. -/
theorem findPhrases_no_quote :
    ∀ s : Str, (∀ c ∈ s, (c == '"') = false) →
      s.foldl phraseStep (false, [], []) = (false, [], []) := by
  intro s
  induction s with
  | nil => intro _; rfl
  | cons c cs ih =>
    intro h
    have hc : (c == '"') = false := h c (List.mem_cons_self _ _)
    rw [List.foldl_cons]
    have hstep : phraseStep (false, [], []) c = (false, [], []) := by
      unfold phraseStep
      rw [hc]
      rfl
    rw [hstep]
    exact ih (fun d hd => h d (List.mem_cons_of_mem _ hd))

/-- Claim C6: the Query Processor's tokens are obtained by lowercasing,
splitting on runs of non-alphanumeric characters, dropping empty strings,
tokens shorter than 2 characters and stopword tokens, and deduplicating
preserving first occurrence; an empty or blank (all-whitespace) raw query
yields empty tokens and empty phrases. -/
theorem c6_tokenize_query_spec :
    (∀ query : Str, tokenize_query query = tokens_spec query)
      ∧ (∀ query : Str, (∀ c ∈ query, isSpaceChar c = true) →
          tokenize_query query = [] ∧ extract_phrases query = []) := by
  have heq : ∀ query : Str, tokenize_query query = tokens_spec query := by
    intro query
    unfold tokenize_query tokens_spec dedupFirst
    by_cases hq : query.isEmpty
    · rw [if_pos hq, List.isEmpty_iff.mp hq]
      rfl
    · rw [if_neg hq, tokFilterAux_eq_filter_dedup]
  refine ⟨heq, ?_⟩
  intro query hws
  constructor
  · rw [heq]
    unfold tokens_spec dedupFirst
    have hall : ∀ p ∈ splitRuns (fun c => !isLowerAlnum c) (query.map Char.toLower), p = [] := by
      refine splitRuns_all_sep _ _ ?_
      intro c hc
      rw [List.mem_map] at hc
      obtain ⟨d, hd, rfl⟩ := hc
      obtain ⟨h1, h2, _⟩ := ws_char_facts d (hws d hd)
      rw [h1, h2]
      rfl
    have hfilter : (splitRuns (fun c => !isLowerAlnum c) (query.map Char.toLower)).filter
        (fun t => !t.isEmpty && !(t.length < 2) && !(t ∈ STOPWORDS : Bool)) = [] := by
      rw [List.filter_eq_nil_iff]
      intro t ht
      rw [hall t ht]
      decide
    rw [hfilter]
    rfl
  · unfold extract_phrases
    by_cases hq : query.isEmpty
    · rw [if_pos hq]
    · rw [if_neg hq]
      unfold findPhrases
      rw [findPhrases_no_quote]
      intro c hc
      rw [List.mem_map] at hc
      obtain ⟨d, hd, rfl⟩ := hc
      obtain ⟨h1, _, h3⟩ := ws_char_facts d (hws d hd)
      rw [h1]
      exact h3

/-- Witness for C6 at the blank query `" \t"`. -/
theorem c6_blank_witness :
    tokenize_query (' ' :: '\t' :: []) = [] ∧ extract_phrases (' ' :: '\t' :: []) = [] :=
  c6_tokenize_query_spec.2 (' ' :: '\t' :: []) (by decide)

/-! ## Deduplication lemmas -/

theorem dedupFirstAux_subset {α : Type} [DecidableEq α] :
    ∀ (l seen : List α) (x : α), x ∈ dedupFirstAux l seen → x ∈ l := by
  intro l
  induction l with
  | nil => intro seen x hx; simp [dedupFirstAux] at hx
  | cons a as ih =>
    intro seen x hx
    unfold dedupFirstAux at hx
    by_cases ha : a ∈ seen
    · rw [if_pos ha] at hx
      exact List.mem_cons_of_mem _ (ih seen x hx)
    · rw [if_neg ha] at hx
      rcases List.mem_cons.mp hx with rfl | hx
      · exact List.mem_cons_self _ _
      · exact List.mem_cons_of_mem _ (ih _ x hx)

theorem dedupFirstAux_not_mem_seen {α : Type} [DecidableEq α] :
    ∀ (l seen : List α) (x : α), x ∈ dedupFirstAux l seen → x ∉ seen := by
  intro l
  induction l with
  | nil => intro seen x hx; simp [dedupFirstAux] at hx
  | cons a as ih =>
    intro seen x hx
    unfold dedupFirstAux at hx
    by_cases ha : a ∈ seen
    · rw [if_pos ha] at hx
      exact ih seen x hx
    · rw [if_neg ha] at hx
      rcases List.mem_cons.mp hx with rfl | hx
      · exact ha
      · intro hxs
        exact ih _ x hx (List.mem_cons_of_mem _ hxs)

theorem dedupFirstAux_nodup {α : Type} [DecidableEq α] :
    ∀ (l seen : List α), (dedupFirstAux l seen).Nodup := by
  intro l
  induction l with
  | nil => intro seen; simp [dedupFirstAux]
  | cons a as ih =>
    intro seen
    unfold dedupFirstAux
    by_cases ha : a ∈ seen
    · rw [if_pos ha]
      exact ih seen
    · rw [if_neg ha]
      refine List.nodup_cons.mpr ⟨?_, ih _⟩
      intro hmem
      exact dedupFirstAux_not_mem_seen as (a :: seen) a hmem (List.mem_cons_self _ _)

/-- Claim C4, corrected: every element of `matched_terms` is a maximal
word-character run (regex `\w+`) of the lowercased query — not a Query
Processor token: the `\b\w+\b` extraction neither removes stopwords nor
splits at underscores, and keeps terms of length > 2 rather than ≥ 2 — has
length > 2, occurs as a case-insensitive literal substring of the
candidate's source text, and `matched_terms` contains no duplicates. -/
theorem c4_matched_terms_amended :
    (∀ query text x, x ∈ extract_matched_terms query text →
        x ∈ reFindallWords (query.map Char.toLower) ∧ 2 < x.length
          ∧ strContains (text.map Char.toLower) x = true)
      ∧ (∀ query text : Str, (extract_matched_terms query text).Nodup) := by
  constructor
  · intro query text x hx
    unfold extract_matched_terms dedupFirst at hx
    have hmem := dedupFirstAux_subset _ _ _ hx
    rw [List.mem_filter] at hmem
    obtain ⟨hrun, hcond⟩ := hmem
    rw [Bool.and_eq_true] at hcond
    obtain ⟨hlen, hsub⟩ := hcond
    exact ⟨hrun, by simpa using hlen, hsub⟩
  · intro query text
    exact dedupFirstAux_nodup _ _

/-- Counterexample to claim C4 as stated: for the query `"the"` and
candidate text `"the cat"`, the matched term `"the"` is returned (the
`\w+` extraction does not filter stopwords) yet the Query Processor's
tokens of `"the"` are empty, so the matched term is not a member of the
query's derived tokens. -/
theorem c4_counterexample_stopword :
    ('t' :: 'h' :: 'e' :: []) ∈
        extract_matched_terms ('t' :: 'h' :: 'e' :: [])
          ('t' :: 'h' :: 'e' :: ' ' :: 'c' :: 'a' :: 't' :: [])
      ∧ ('t' :: 'h' :: 'e' :: []) ∉ tokenize_query ('t' :: 'h' :: 'e' :: []) := by
  constructor
  · decide
  · decide

/-- Witness for the amended C4 at the query `"Power BI"` and text
`"uses Power BI daily"`, with the matched term `"power"`. -/
theorem c4_matched_terms_witness :
    ('p' :: 'o' :: 'w' :: 'e' :: 'r' :: []) ∈
        reFindallWords (("Power BI".toList).map Char.toLower)
      ∧ 2 < ('p' :: 'o' :: 'w' :: 'e' :: 'r' :: []).length
      ∧ strContains (("uses Power BI daily".toList).map Char.toLower)
          ('p' :: 'o' :: 'w' :: 'e' :: 'r' :: []) = true :=
  c4_matched_terms_amended.1 ("Power BI".toList) ("uses Power BI daily".toList)
    ('p' :: 'o' :: 'w' :: 'e' :: 'r' :: []) (by decide)

/-! ## Snippet lemmas -/

/-- A positive maximum match count is attained by some sentence. -/
theorem maxMatches_attained (terms : List Str) :
    ∀ l : List Str, 0 < maxMatches terms l →
      ∃ s ∈ l, sentenceMatches terms s = maxMatches terms l := by
  intro l
  induction l with
  | nil => intro h; simp [maxMatches] at h
  | cons s ls ih =>
    intro h
    have hmax : maxMatches terms (s :: ls)
        = max (sentenceMatches terms s) (maxMatches terms ls) := rfl
    by_cases hc : maxMatches terms ls ≤ sentenceMatches terms s
    · refine ⟨s, List.mem_cons_self _ _, ?_⟩
      rw [hmax, max_eq_left hc]
    · have hK : maxMatches terms (s :: ls) = maxMatches terms ls := by
        rw [hmax, max_eq_right (le_of_lt (lt_of_not_le hc))]
      rw [hK]
      have hpos : 0 < maxMatches terms ls := by
        rcases Nat.eq_zero_or_pos (maxMatches terms ls) with h0 | h0
        · rw [h0] at hc; exact absurd (Nat.zero_le _) hc
        · exact h0
      obtain ⟨x, hx, hxe⟩ := ih hpos
      exact ⟨x, List.mem_cons_of_mem _ hx, hxe⟩

/-- The strict-improvement loop of `generate_snippet` computes the stripped
first sentence attaining the maximum match count, when some sentence beats
the initial running maximum. -/
theorem bestLoop_eq_argmax (terms : List Str) :
    ∀ (l : List Str) (m : ℕ) (best : Str),
      bestLoop terms l best m =
        if maxMatches terms l ≤ m then best
        else pyStrip ((l.find? (fun s =>
          sentenceMatches terms s = maxMatches terms l)).getD best) := by
  intro l
  induction l with
  | nil =>
    intro m best
    rw [if_pos (show maxMatches terms [] ≤ m from Nat.zero_le m)]
    rfl
  | cons s ls ih =>
    intro m best
    have hmax : maxMatches terms (s :: ls)
        = max (sentenceMatches terms s) (maxMatches terms ls) := rfl
    show (if m < sentenceMatches terms s then
        bestLoop terms ls (pyStrip s) (sentenceMatches terms s)
      else bestLoop terms ls best m) = _
    by_cases hm : m < sentenceMatches terms s
    · rw [if_pos hm, ih]
      have hnotle : ¬ maxMatches terms (s :: ls) ≤ m := by
        rw [hmax]
        omega
      rw [if_neg hnotle]
      by_cases hKc : maxMatches terms ls ≤ sentenceMatches terms s
      · rw [if_pos hKc]
        have hvmax : maxMatches terms (s :: ls) = sentenceMatches terms s := by
          rw [hmax, max_eq_left hKc]
        have hfind : (s :: ls).find? (fun x =>
            sentenceMatches terms x = maxMatches terms (s :: ls)) = some s := by
          refine List.find?_cons_of_pos _ ?_
          simp [hvmax]
        rw [hfind]
        rfl
      · have hcK : sentenceMatches terms s < maxMatches terms ls :=
          lt_of_not_le hKc
        rw [if_neg (not_le_of_lt hcK)]
        have hvmax : maxMatches terms (s :: ls) = maxMatches terms ls := by
          rw [hmax, max_eq_right (le_of_lt hcK)]
        have hfind : (s :: ls).find? (fun x =>
            sentenceMatches terms x = maxMatches terms (s :: ls)) =
              ls.find? (fun x => sentenceMatches terms x = maxMatches terms (s :: ls)) := by
          refine List.find?_cons_of_neg _ ?_
          simp [hvmax]
          omega
        rw [hfind, hvmax]
        obtain ⟨x, hx, hxe⟩ := maxMatches_attained terms ls (by omega)
        have hsome : ls.find? (fun x => sentenceMatches terms x = maxMatches terms ls)
            ≠ none := by
          intro hnone
          have := List.find?_eq_none.mp hnone x hx
          simp [hxe] at this
        rcases hfound : ls.find? (fun x => sentenceMatches terms x = maxMatches terms ls)
          with _ | y
        · exact absurd hfound hsome
        · rfl
    · rw [if_neg hm, ih]
      by_cases hK : maxMatches terms ls ≤ m
      · have hle : maxMatches terms (s :: ls) ≤ m := by
          rw [hmax]
          omega
        rw [if_pos hK, if_pos hle]
      · have hnotle : ¬ maxMatches terms (s :: ls) ≤ m := by
          rw [hmax]
          omega
        rw [if_neg hK, if_neg hnotle]
        have hvmax : maxMatches terms (s :: ls) = maxMatches terms ls := by
          rw [hmax, max_eq_right (by omega)]
        have hfind : (s :: ls).find? (fun x =>
            sentenceMatches terms x = maxMatches terms (s :: ls)) =
              ls.find? (fun x => sentenceMatches terms x = maxMatches terms (s :: ls)) := by
          refine List.find?_cons_of_neg _ ?_
          simp [hvmax]
          omega
        rw [hfind, hvmax]

/-- Claim C7, corrected: with a non-empty matched-terms list, the snippet
is the first-seen sentence (splitting on runs of `.`, `!`, `?`) with the
strictly highest count of matched terms, *stripped of leading and trailing
whitespace*, truncated to `maxLen` characters with a `"..."` marker when
longer; when the matched-terms list is empty, no sentence contains a
matched term, or the winning sentence is whitespace-only, the snippet is
the first `maxLen` characters of the full text, with the marker exactly
when the text is longer. -/
theorem c7_snippet_amended (text : Str) (terms : List Str) (maxLen : ℕ) :
    generate_snippet text terms maxLen = snippet_spec text terms maxLen := by
  unfold generate_snippet snippet_spec
  simp only []
  by_cases hterms : terms.isEmpty
  · rw [if_pos hterms]
    simp [hterms]
  · rw [if_neg hterms]
    have hbl := bestLoop_eq_argmax terms (splitRuns isSentChar text) 0 []
    by_cases hm : maxMatches terms (splitRuns isSentChar text) = 0
    · rw [if_pos (le_of_eq hm)] at hbl
      rw [hbl]
      simp [hterms, hm]
    · rw [if_neg (by omega)] at hbl
      rw [hbl]
      have hcond : (terms.isEmpty || decide (maxMatches terms (splitRuns isSentChar text) = 0))
          = false := by
        simp [hterms, hm]
      simp only [hcond, Bool.false_eq_true, if_neg, not_false_eq_true, truncDots]
      by_cases hempty : (pyStrip ((List.find? (fun s =>
          sentenceMatches terms s = maxMatches terms (splitRuns isSentChar text))
            (splitRuns isSentChar text)).getD [])).isEmpty
      · simp [hempty]
      · simp [hempty]

/-- Counterexample to claim C7 as stated: for the text `"a. hello yes"` and
matched terms `["hello"]`, the winning sentence produced by the sentence
split is `" hello yes"` (with its leading space), but the code returns the
stripped `"hello yes"`, so the snippet is not literally the first-seen
best sentence. -/
theorem c7_counterexample_strip :
    generate_snippet ("a. hello yes".toList) (("hello".toList) :: []) 150
      ≠ snippet_claimed ("a. hello yes".toList) (("hello".toList) :: []) 150 := by
  decide

/-! ## Score bound lemmas -/

theorem pyRound0_nonneg (x : ℚ) (hx : 0 ≤ x) : 0 ≤ pyRound0 x := by
  unfold pyRound0
  have hfl : (0 : ℤ) ≤ ⌊x⌋ := Int.floor_nonneg.mpr hx
  by_cases h : x - ⌊x⌋ = 1 / 2
  · rw [if_pos h]
    by_cases h2 : 2 ∣ ⌊x⌋ <;> simp only [h2, if_pos, if_true, if_neg, if_false,
      not_false_eq_true] <;> omega
  · rw [if_neg h, round_eq]
    exact Int.floor_nonneg.mpr (by linarith)

theorem pyRound0_le_of_le (x : ℚ) (B : ℤ) (hx : x ≤ B) : pyRound0 x ≤ B := by
  unfold pyRound0
  have hfl : ⌊x⌋ ≤ B := by
    have := Int.floor_le_floor hx
    rwa [Int.floor_intCast] at this
  by_cases h : x - ⌊x⌋ = 1 / 2
  · rw [if_pos h]
    have hxeq : x = (⌊x⌋ : ℚ) + 1 / 2 := by linarith
    have hltQ : ((⌊x⌋ : ℚ)) < (B : ℚ) := by
      rw [hxeq] at hx
      linarith
    have hlt : ⌊x⌋ < B := by exact_mod_cast hltQ
    by_cases h2 : 2 ∣ ⌊x⌋ <;> simp only [h2, if_pos, if_true, if_neg, if_false,
      not_false_eq_true] <;> omega
  · rw [if_neg h, round_eq]
    rw [Int.floor_le_iff]
    linarith

/-- Rounding via `round(q, 3)` stays in `[0, 1]` when `q` does. -/
theorem pyRound3_mem_unit (q : ℚ) (h0 : 0 ≤ q) (h1 : q ≤ 1) :
    0 ≤ pyRound3 q ∧ pyRound3 q ≤ 1 := by
  unfold pyRound3
  constructor
  · have h := pyRound0_nonneg (q * 1000) (by linarith)
    have h' : (0 : ℚ) ≤ (pyRound0 (q * 1000) : ℚ) := by exact_mod_cast h
    linarith [div_nonneg h' (show (0:ℚ) ≤ 1000 by norm_num)]
  · have h := pyRound0_le_of_le (q * 1000) 1000 (by norm_num; linarith)
    have h' : (pyRound0 (q * 1000) : ℚ) ≤ 1000 := by exact_mod_cast h
    rw [div_le_one (by norm_num)]
    exact h'

theorem phraseBoost_nonneg (phrases : List Str) (text : Str) :
    0 ≤ phraseBoost phrases text := by
  unfold phraseBoost
  rw [phraseBoost_foldl, zero_add]
  positivity

theorem modeA_relevance_mem_unit (query text : Str) (k : ℤ) :
    0 ≤ modeA_relevance query text k ∧ modeA_relevance query text k ≤ 1 := by
  unfold modeA_relevance
  exact ⟨le_max_left _ _, max_le (by norm_num) (min_le_left _ _)⟩

theorem modeB_relevancy_mem_unit (terms phrases : List Str) (summary : Str) :
    0 ≤ modeB_relevancy terms phrases summary
      ∧ modeB_relevancy terms phrases summary ≤ 1 := by
  unfold modeB_relevancy
  simp only []
  constructor
  · refine le_min (by norm_num) (add_nonneg ?_ ?_)
    · split
      · positivity
      · exact le_refl 0
    · exact le_min (phraseBoost_nonneg _ _) (by norm_num)
  · exact min_le_left _ _

/-- Claim C3, corrected: for every query and candidate, in both modes the
relevance (raw and rounded) lies in `[0, 1]` unconditionally, and the
normalised intent lies in `[0, 1]` *provided the stored intent count is
nonnegative*; a negative stored count yields a negative `intentNorm`
(`min(count / 5, 1.0)` only caps from above). -/
theorem c3_score_bounds (query : Str) (c : ACandidate) (terms phrases : List Str)
    (r : BRecord) :
    (0 ≤ modeA_relevance query (coerceText c.resume) c.intentCount
        ∧ modeA_relevance query (coerceText c.resume) c.intentCount ≤ 1)
      ∧ (0 ≤ (scoreA query c).relevance ∧ (scoreA query c).relevance ≤ 1)
      ∧ (0 ≤ c.intentCount →
          0 ≤ modeA_intentNorm c.intentCount ∧ modeA_intentNorm c.intentCount ≤ 1
            ∧ 0 ≤ (scoreA query c).fit_score ∧ (scoreA query c).fit_score ≤ 1)
      ∧ (0 ≤ modeB_relevancy terms phrases r.summary
          ∧ modeB_relevancy terms phrases r.summary ≤ 1)
      ∧ (0 ≤ (scoreB terms phrases r).relevance ∧ (scoreB terms phrases r).relevance ≤ 1)
      ∧ (0 ≤ r.intentRaw →
          0 ≤ modeB_intentNorm r.intentRaw ∧ modeB_intentNorm r.intentRaw ≤ 1) := by
  have hA := modeA_relevance_mem_unit query (coerceText c.resume) c.intentCount
  have hB := modeB_relevancy_mem_unit terms phrases r.summary
  refine ⟨hA, ?_, ?_, hB, ?_, ?_⟩
  · exact pyRound3_mem_unit _ hA.1 hA.2
  · intro hk
    have h1 : 0 ≤ modeA_intentNorm c.intentCount := by
      unfold modeA_intentNorm INTENT_CAP
      refine le_min ?_ (by norm_num)
      have : (0 : ℚ) ≤ (c.intentCount : ℚ) := by exact_mod_cast hk
      positivity
    have h2 : modeA_intentNorm c.intentCount ≤ 1 := min_le_right _ _
    have h3 := pyRound3_mem_unit _ h1 h2
    exact ⟨h1, h2, h3.1, h3.2⟩
  · exact pyRound3_mem_unit _ hB.1 hB.2
  · intro hr
    refine ⟨le_min (by positivity) (by norm_num), min_le_right _ _⟩

/-- Counterexample to claim C3 as stated: a stored intent count of `-5`
yields `intentNorm = -1 < 0` in Mode A (and it surfaces in the returned
`fit_score`); a raw intent of `-10` yields `intentNorm = -2` in Mode B.
The claim's "no precondition on the sign of the stored intent count" fails. -/
theorem c3_counterexample_negative_intent :
    modeA_intentNorm (-5) = -1
      ∧ (scoreA [] ⟨[], Jval.jstr [], -5⟩).fit_score = -1
      ∧ modeB_intentNorm (-10) = -2 := by
  refine ⟨?_, ?_, ?_⟩
  · norm_num [modeA_intentNorm, INTENT_CAP]
  · show pyRound3 (modeA_intentNorm (-5)) = -1
    norm_num [modeA_intentNorm, INTENT_CAP, pyRound3, pyRound0, round_eq]
  · norm_num [modeB_intentNorm]

/-- Witness for the amended C3 at a concrete candidate with nonnegative
intent counts. -/
theorem c3_bounds_witness :
    (0 ≤ modeA_relevance ('a' :: 'b' :: [])
          (coerceText (Jval.jstr ('a' :: 'b' :: ' ' :: 'c' :: []))) 3
        ∧ modeA_relevance ('a' :: 'b' :: [])
            (coerceText (Jval.jstr ('a' :: 'b' :: ' ' :: 'c' :: []))) 3 ≤ 1)
      ∧ (0 ≤ modeA_intentNorm 3 ∧ modeA_intentNorm 3 ≤ 1)
      ∧ (0 ≤ modeB_intentNorm 2 ∧ modeB_intentNorm 2 ≤ 1) := by
  have h := c3_score_bounds ('a' :: 'b' :: [])
    ⟨[], Jval.jstr ('a' :: 'b' :: ' ' :: 'c' :: []), 3⟩ [] [] ⟨[], [], 2⟩
  have hA := h.2.2.1 (by decide)
  have hB := h.2.2.2.2.2 (by norm_num)
  exact ⟨h.1, ⟨hA.1, hA.2.1⟩, hB⟩

/-! ## Empty-text lemmas -/

/-- Every Query Processor token has at least 2 characters. -/
theorem tokenize_query_two_le_length :
    ∀ (query t : Str), t ∈ tokenize_query query → 2 ≤ t.length := by
  intro query t ht
  unfold tokenize_query at ht
  by_cases hq : query.isEmpty
  · rw [if_pos hq] at ht
    simp at ht
  · rw [if_neg hq, tokFilterAux_eq_filter_dedup] at ht
    have := dedupFirstAux_subset _ _ _ ht
    rw [List.mem_filter] at this
    have hcond := this.2
    rw [Bool.and_eq_true, Bool.and_eq_true] at hcond
    have := hcond.1.2
    simp at this
    omega

/-- A non-empty needle is never a substring of the empty string. -/
theorem strContains_nil_of_ne_nil (t : Str) (h : t ≠ []) : strContains [] t = false := by
  cases t with
  | nil => exact absurd rfl h
  | cons c cs => rfl

/-- Claim C8, corrected: for a candidate whose text field is the empty
string, Mode A yields `textSim = 0` (the empty-set Jaccard), hence
`relevance = clamp((1 - ALPHA) * intentNorm, 0, 1)` — the intent component
alone, not necessarily 0 — and Mode B yields `hits = 0`. -/
theorem c8_empty_text (query : Str) (k : ℤ) :
    calculate_text_similarity query [] = 0
      ∧ modeA_relevance query [] k
          = max 0 (min 1 ((1 - RELEVANCE_ALPHA) * modeA_intentNorm k))
      ∧ (tokenize_query query).countP
          (fun t => strContains (([] : Str).map Char.toLower) t) = 0 := by
  have hsim : calculate_text_similarity query [] = 0 := by
    unfold calculate_text_similarity
    simp
  refine ⟨hsim, ?_, ?_⟩
  · unfold modeA_relevance
    rw [hsim, mul_zero, zero_add]
  · rw [List.countP_eq_zero]
    intro t ht
    have hlen := tokenize_query_two_le_length query t ht
    have hne : t ≠ [] := by
      intro hnil
      rw [hnil] at hlen
      simp at hlen
    simp only [List.map_nil]
    rw [strContains_nil_of_ne_nil t hne]
    simp

/-- Counterexample to claim C8 as stated: a candidate with empty resume
text but stored intent count 3 receives Mode A relevance
`clamp(0.6 * 0 + 0.4 * 0.6) = 0.24 ≠ 0`. -/
theorem c8_counterexample_intent_component :
    modeA_relevance ('x' :: []) [] 3 = 6 / 25 ∧ (6 / 25 : ℚ) ≠ 0 := by
  constructor
  · have hsim : calculate_text_similarity ('x' :: []) [] = 0 := by
      unfold calculate_text_similarity
      simp
    unfold modeA_relevance modeA_intentNorm RELEVANCE_ALPHA INTENT_CAP
    rw [hsim]
    rw [show min ((3 : ℤ) / 5 : ℚ) 1 = 3 / 5 by
      rw [min_eq_left] <;> norm_num]
    norm_num
  · norm_num

/-- Claim C9: scoring a candidate whose text field holds a non-string
(structured) value coerces the value to its JSON serialisation before any
tokenization or matching — the scored result is exactly the one obtained
from the JSON-serialised string — and, the scorer being a total function,
a `ScoredResult` is always produced; the malformed field never fails the
candidate's scoring. -/
theorem c9_malformed_field_coerced (query name : Str) (k : ℤ) (v : Jval)
    (h : ∀ s : Str, v ≠ Jval.jstr s) :
    scoreA query ⟨name, v, k⟩ = scoreA query ⟨name, Jval.jstr (jsonDumps v), k⟩ := by
  have hcoerce : coerceText v = jsonDumps v := by
    cases v with
    | jstr s => exact absurd rfl (h s)
    | jnum n => rfl
    | jbool b => rfl
    | jnull => rfl
    | jarr l => rfl
  unfold scoreA
  rw [hcoerce]
  rfl

/-- Witness for C9 at the numeric field value `7`. -/
theorem c9_coercion_witness :
    scoreA ('a' :: []) ⟨[], Jval.jnum 7, 2⟩
      = scoreA ('a' :: []) ⟨[], Jval.jstr (jsonDumps (Jval.jnum 7)), 2⟩ :=
  c9_malformed_field_coerced ('a' :: []) [] 2 (Jval.jnum 7) (fun s h => Jval.noConfusion h)

/-- Claim C10: in the Mode A endpoint the returned `fit_score` equals
`round(min(intentCount / INTENT_CAP, 1.0), 3)` — it is the normalised
intent, not an independent text-based fit: it does not depend on the query
or on the candidate's text. -/
theorem c10_fit_score_is_intent_alias :
    (∀ (query : Str) (c : ACandidate),
        (scoreA query c).fit_score = pyRound3 (min ((c.intentCount : ℚ) / INTENT_CAP) 1))
      ∧ (∀ (q1 q2 n1 n2 : Str) (v1 v2 : Jval) (k : ℤ),
          (scoreA q1 ⟨n1, v1, k⟩).fit_score = (scoreA q2 ⟨n2, v2, k⟩).fit_score) := by
  exact ⟨fun query c => rfl, fun q1 q2 n1 n2 v1 v2 k => rfl⟩

end Signal
